import Mathlib

/-!
# libbase string utilities (`include/libbase/strings.h`)

A shallow embedding of the string helpers of `libbase` and the properties
their documentation promises.

* `std::string` is a list of characters (`Str`).
* `std::string_view` is a window `(data, start, size)` over a backing text; the
  operations that are undefined outside their bounds in C++ (`front`, `back`,
  `remove_prefix`, `remove_suffix`) return `none` there.
* `std::ostringstream` is the text written so far; `operator<<` appends.
* `Trim`, `Join`, `ConsumePrefix` and `ConsumeSuffix` have their bodies in the header and are
  embedded from them. `Split`, `Tokenize`, `StartsWith`, `EndsWith`, their case-insensitive
  variants, `EqualsIgnoreCase` and `StringReplace` are only declared there; each is modelled
  from its documented contract and marked so.
-/

namespace libbase

/-- A `std::string`: a finite sequence of characters. -/
abbrev Str := List Char

/-- The `isspace` of `<ctype.h>` in the "C" locale: space, `\t`, `\n`, `\v`, `\f`, `\r`. -/
def isspace (c : Char) : Bool :=
  c == ' ' || c == '\t' || c == '\n' || c == Char.ofNat 11 || c == Char.ofNat 12 || c == '\r'

/-- A `std::string_view`: a window of `size` characters starting at offset `start` of the
backing text `data`, which it borrows and never owns. The window lies inside the text. -/
structure StringView where
  data : Str
  start : Nat
  size : Nat
  wf : start + size ≤ data.length

namespace StringView

/-- The view over the whole of a string (the conversion `std::string` to `std::string_view`). -/
def ofString (s : Str) : StringView :=
  ⟨s, 0, s.length, by simp⟩

/-- The characters seen through the view (the conversion `std::string(sv)`). -/
def str (sv : StringView) : Str :=
  (sv.data.drop sv.start).take sv.size

/-- The `empty()` of a view. -/
def empty (sv : StringView) : Bool :=
  sv.size == 0

/-- The `front()` of a view: the first character; undefined on an empty view. -/
def front (sv : StringView) : Option Char :=
  if sv.size = 0 then none else sv.data[sv.start]?

/-- The `back()` of a view: the last character; undefined on an empty view. -/
def back (sv : StringView) : Option Char :=
  if sv.size = 0 then none else sv.data[sv.start + sv.size - 1]?

/-- The `remove_prefix(n)` of a view: moves the start forward by `n`; undefined when
`n > size()`. -/
def remove_prefix (sv : StringView) (n : Nat) : Option StringView :=
  if h : n ≤ sv.size then
    some ⟨sv.data, sv.start + n, sv.size - n, by have := sv.wf; omega⟩
  else none

/-- The `remove_suffix(n)` of a view: moves the end backward by `n`; undefined when
`n > size()`. -/
def remove_suffix (sv : StringView) (n : Nat) : Option StringView :=
  if h : n ≤ sv.size then
    some ⟨sv.data, sv.start, sv.size - n, by have := sv.wf; omega⟩
  else none

end StringView

/-- The first loop of `Trim`: `while (!sv.empty() && isspace(sv.front())) sv.remove_prefix(1);` -/
def Trim.skipInitial (sv : StringView) : Option StringView :=
  if sv.empty then some sv
  else
    match sv.front with
    | none => none
    | some c =>
      if isspace c then
        match hrm : StringView.remove_prefix sv 1 with
        | none => none
        | some sv1 => Trim.skipInitial sv1
      else some sv
termination_by sv.size
decreasing_by
  unfold StringView.remove_prefix at hrm
  split at hrm
  · simp only [Option.some.injEq] at hrm
    subst hrm
    simp only
    omega
  · simp at hrm

/-- The second loop of `Trim`: `while (!sv.empty() && isspace(sv.back())) sv.remove_suffix(1);` -/
def Trim.skipTerminating (sv : StringView) : Option StringView :=
  if sv.empty then some sv
  else
    match sv.back with
    | none => none
    | some c =>
      if isspace c then
        match hrm : StringView.remove_suffix sv 1 with
        | none => none
        | some sv1 => Trim.skipTerminating sv1
      else some sv
termination_by sv.size
decreasing_by
  unfold StringView.remove_suffix at hrm
  split at hrm
  · simp only [Option.some.injEq] at hrm
    subst hrm
    simp only
    omega
  · simp at hrm

/-- `Trim(t)`: view the text, skip the initial whitespace, skip the terminating whitespace,
and return a new string holding what the view still shows. -/
def Trim (t : Str) : Option Str :=
  match Trim.skipInitial (StringView.ofString t) with
  | none => none
  | some sv1 =>
    match Trim.skipTerminating sv1 with
    | none => none
    | some sv2 => some sv2.str

/-- What `operator<<` appends to an output stream for a value of type `T`. -/
class Streamable (T : Type) where
  put : T → Str

/-- A `std::string` (or a C string) is written as its characters. -/
instance : Streamable Str := ⟨fun s => s⟩

/-- A `char` is written as that one character. -/
instance : Streamable Char := ⟨fun c => [c]⟩

/-- `Join(things, separator)`: the empty string for an empty container; otherwise the first
element is written to the stream and then, for every further element in container order,
the separator followed by the element. -/
def Join {T S : Type} [Streamable T] [Streamable S] (things : List T) (separator : S) : Str :=
  match things with
  | [] => []
  | first :: rest =>
    rest.foldl (fun result it => result ++ Streamable.put separator ++ Streamable.put it)
      (Streamable.put first)

/-- Modelled from the spec: `StartsWith(s, prefix)` is only declared in the header (its body
is in `strings.cpp`, which is not among the sources); it "tests whether `s` starts with
`prefix`", a boolean prefix test over views. -/
def StartsWith (s pfx : StringView) : Bool :=
  pfx.str.isPrefixOf s.str

/-- Modelled from the spec: `EndsWith(s, suffix)` is only declared in the header (its body
is in `strings.cpp`, which is not among the sources); it "tests whether `s` ends
with `suffix`", a boolean suffix test over views. -/
def EndsWith (s sfx : StringView) : Bool :=
  sfx.str.isSuffixOf s.str

/-- `ConsumePrefix(&s, prefix)`: returns `false` and leaves the view alone when `s` does not
start with `prefix`; otherwise narrows the view by `prefix.size()` and returns `true`.
The result pairs the returned flag with the view after the call. -/
def ConsumePrefix (s pfx : StringView) : Option (Bool × StringView) :=
  if !StartsWith s pfx then some (false, s)
  else
    match StringView.remove_prefix s pfx.size with
    | none => none
    | some s1 => some (true, s1)

/-- `ConsumeSuffix(&s, suffix)`: returns `false` and leaves the view alone when `s` does
not end with `suffix`; otherwise narrows the view by `suffix.size()` and returns `true`.
The result pairs the returned flag with the view after the call. -/
def ConsumeSuffix (s sfx : StringView) : Option (Bool × StringView) :=
  if !EndsWith s sfx then some (false, s)
  else
    match StringView.remove_suffix s sfx.size with
    | none => none
    | some s1 => some (true, s1)

/-- Modelled from the spec: the fields of `Split` (its body is in `strings.cpp`, which is not
among the sources): `s` is cut at every character found in `delimiters`; a delimiter closes the
current field, also when that field is empty, and the text after the last delimiter is the
last field. -/
def Split.fields (s delimiters : Str) : List Str :=
  match s with
  | [] => [[]]
  | c :: cs =>
    if delimiters.contains c then [] :: Split.fields cs delimiters
    else
      match Split.fields cs delimiters with
      | [] => [[c]]
      | field :: rest => (c :: field) :: rest

/-- Modelled from the spec: `Split(s, delimiters)` is only declared in the header (its body
is in `strings.cpp`, which is not among the sources). It splits `s` at every occurrence of
any character found in `delimiters` and preserves empty fields; an empty `s` gives the single
field `""`; an empty delimiter list is not valid, so there is no result for it. -/
def Split (s delimiters : Str) : Option (List Str) :=
  if delimiters.isEmpty then none else some (Split.fields s delimiters)

/-- Modelled from the spec: the scan of `Tokenize` (its body is in `strings.cpp`, which is not
among the sources). `cur` is the token read so far; a character found in `delimiters` closes
it, and it is kept only when it is not empty, so runs of delimiters are coalesced and
delimiters at the start or the end of the text give no token. -/
def Tokenize.scan (delimiters : Str) (cur : Str) : Str → List Str
  | [] => if cur.isEmpty then [] else [cur]
  | c :: cs =>
    if delimiters.contains c then
      if cur.isEmpty then Tokenize.scan delimiters [] cs
      else cur :: Tokenize.scan delimiters [] cs
    else Tokenize.scan delimiters (cur ++ [c]) cs

/-- Modelled from the spec: `Tokenize(s, delimiters)` is only declared in the header (its
body is in `strings.cpp`, which is not among the sources). It splits `s` at each occurrence of
a character in `delimiters`, coalesces runs of delimiters and ignores delimiters at the start
or the end, returning only the non-empty tokens; an empty delimiter list is not valid, so
there is no result for it. -/
def Tokenize (s delimiters : Str) : Option (List Str) :=
  if delimiters.isEmpty then none else some (Tokenize.scan delimiters [] s)

/-- Modelled from the spec: the left-to-right scan of `StringReplace` (its body is in
`strings.cpp`, which is not among the sources) for a non-empty `from`. At a position where
`from` matches, `to` is written and the scan goes on behind the match when `all` is set, and
otherwise copies the rest of the text; where it does not match, the character is copied. -/
def StringReplace.scan (from_ to_ : Str) (all : Bool) (s : Str) : Str :=
  match s with
  | [] => []
  | c :: cs =>
    if from_.isPrefixOf (c :: cs) && !from_.isEmpty then
      to_ ++ (if all then StringReplace.scan from_ to_ all ((c :: cs).drop from_.length)
        else (c :: cs).drop from_.length)
    else c :: StringReplace.scan from_ to_ all cs
termination_by s.length
decreasing_by
  · rename_i h
    simp only [Bool.and_eq_true, Bool.not_eq_true', List.isEmpty_eq_false] at h
    have hpos : 0 < from_.length := List.length_pos.mpr h.2
    simp only [List.length_drop, List.length_cons]
    omega
  · simp

/-- Modelled from the spec: `StringReplace(s, from, to, all)` is only declared in the header
(its body is in `strings.cpp`, which is not among the sources). It replaces the leftmost
occurrence of `from` by `to`, or every non-overlapping occurrence from left to right when
`all` is set, never scanning the text it has written; for an empty `from` the spec recommends
"no occurrences found, return `s` unchanged". -/
def StringReplace (s from_ to_ : Str) (all : Bool) : Str :=
  if from_.isEmpty then s else StringReplace.scan from_ to_ all s

/-- Modelled from the spec: the ASCII case fold used by the case-insensitive tests (their
bodies are in `strings.cpp`, which is not among the sources): the upper-case letters `A`..`Z`
go to `a`..`z`, every other character is left alone. -/
def tolower (c : Char) : Char :=
  if 'A' ≤ c ∧ c ≤ 'Z' then Char.ofNat (c.toNat + 32) else c

/-- Modelled from the spec: `EqualsIgnoreCase(lhs, rhs)` is only declared in the header (its
body is in `strings.cpp`, which is not among the sources): an equality test ignoring ASCII
case; strings of different lengths are never equal. -/
def EqualsIgnoreCase (lhs rhs : StringView) : Bool :=
  lhs.size == rhs.size && lhs.str.map tolower == rhs.str.map tolower

/-- Modelled from the spec: `StartsWithIgnoreCase(s, prefix)` is only declared in the header
(its body is in `strings.cpp`, which is not among the sources): the prefix test of
`StartsWith` made under ASCII case folding. -/
def StartsWithIgnoreCase (s pfx : StringView) : Bool :=
  (pfx.str.map tolower).isPrefixOf (s.str.map tolower)

/-- The body of `ConsumePrefix` with the test `StartsWith`, whose body is not among the
sources, taken as the parameter `startsWith`. -/
def ConsumePrefixWith (startsWith : StringView → StringView → Bool) (s pfx : StringView) :
    Option (Bool × StringView) :=
  if !startsWith s pfx then some (false, s)
  else
    match StringView.remove_prefix s pfx.size with
    | none => none
    | some s1 => some (true, s1)

/-- The body of `ConsumeSuffix` with the test `EndsWith`, whose body is not among the
sources, taken as the parameter `endsWith`. -/
def ConsumeSuffixWith (endsWith : StringView → StringView → Bool) (s sfx : StringView) :
    Option (Bool × StringView) :=
  if !endsWith s sfx then some (false, s)
  else
    match StringView.remove_suffix s sfx.size with
    | none => none
    | some s1 => some (true, s1)

/-! ## Views and their text -/

namespace StringView

theorem empty_iff (sv : StringView) : sv.empty = true ↔ sv.size = 0 := by
  simp [empty]

theorem length_str (sv : StringView) : sv.str.length = sv.size := by
  have := sv.wf
  simp only [str, List.length_take, List.length_drop]
  omega

theorem str_ofString (s : Str) : (ofString s).str = s := by
  simp [str, ofString]

theorem front_eq_head (sv : StringView) : sv.front = sv.str.head? := by
  unfold front str
  split
  · next h => simp [h]
  · next h =>
    rw [List.head?_eq_getElem?, List.getElem?_take_of_lt (by omega), List.getElem?_drop]
    rfl

theorem back_eq_getLast (sv : StringView) : sv.back = sv.str.getLast? := by
  unfold back
  split
  · next h =>
    have hl := length_str sv
    rw [h] at hl
    rw [List.length_eq_zero.mp hl]
    rfl
  · next h =>
    rw [List.getLast?_eq_getElem?, length_str]
    unfold str
    rw [List.getElem?_take_of_lt (by omega), List.getElem?_drop]
    congr 1
    omega

theorem remove_prefix_spec {sv sv1 : StringView} {n : Nat}
    (h : remove_prefix sv n = some sv1) :
    n ≤ sv.size ∧ sv1.data = sv.data ∧ sv1.start = sv.start + n ∧ sv1.size = sv.size - n ∧
      sv1.str = sv.str.drop n := by
  unfold remove_prefix at h
  split at h
  · next hn =>
    simp only [Option.some.injEq] at h
    subst h
    refine ⟨hn, rfl, rfl, rfl, ?_⟩
    simp only [str, List.drop_take, List.drop_drop]
  · simp at h

theorem remove_suffix_spec {sv sv1 : StringView} {n : Nat}
    (h : remove_suffix sv n = some sv1) :
    n ≤ sv.size ∧ sv1.data = sv.data ∧ sv1.start = sv.start ∧ sv1.size = sv.size - n ∧
      sv1.str = sv.str.take (sv.size - n) := by
  unfold remove_suffix at h
  split at h
  · next hn =>
    simp only [Option.some.injEq] at h
    subst h
    refine ⟨hn, rfl, rfl, rfl, ?_⟩
    simp only [str, List.take_take]
    congr 1
    omega
  · simp at h

theorem remove_prefix_isSome (sv : StringView) (n : Nat) (h : n ≤ sv.size) :
    ∃ sv1, remove_prefix sv n = some sv1 := by
  unfold remove_prefix
  rw [dif_pos h]
  exact ⟨_, rfl⟩

theorem remove_suffix_isSome (sv : StringView) (n : Nat) (h : n ≤ sv.size) :
    ∃ sv1, remove_suffix sv n = some sv1 := by
  unfold remove_suffix
  rw [dif_pos h]
  exact ⟨_, rfl⟩

end StringView

/-! ## The loops of `Trim` -/

theorem Trim.skipInitial_spec (sv : StringView) :
    ∃ sv1, Trim.skipInitial sv = some sv1 ∧ sv1.data = sv.data ∧
      sv1.start + sv1.size = sv.start + sv.size ∧
      sv1.str = sv.str.dropWhile isspace := by
  obtain ⟨n, hn⟩ : ∃ n, sv.size = n := ⟨_, rfl⟩
  induction n using Nat.strong_induction_on generalizing sv with
  | _ n ih =>
    unfold Trim.skipInitial
    split
    · next hemp =>
      have hsz : sv.size = 0 := (StringView.empty_iff sv).mp hemp
      have hl := StringView.length_str sv
      rw [hsz] at hl
      refine ⟨sv, rfl, rfl, rfl, ?_⟩
      rw [List.length_eq_zero.mp hl]
      rfl
    · next hemp =>
      have hsz : ¬ sv.size = 0 := fun h0 => hemp ((StringView.empty_iff sv).mpr h0)
      have hl := StringView.length_str sv
      have hf := StringView.front_eq_head sv
      cases hs : sv.str with
      | nil => rw [hs] at hl; simp at hl; omega
      | cons c cs =>
        rw [hs] at hf
        simp only [List.head?_cons] at hf
        simp only [hf]
        by_cases hc : isspace c = true
        · simp only [hc, if_true]
          obtain ⟨sv1, h1⟩ := StringView.remove_prefix_isSome sv 1 (by omega)
          obtain ⟨_, hd, hst, hsize, hstr⟩ := StringView.remove_prefix_spec h1
          obtain ⟨sv2, h2, hd2, he2, hstr2⟩ := ih sv1.size (by omega) sv1 rfl
          split
          · next heq => rw [h1] at heq; simp at heq
          · next sv1' heq =>
            rw [h1] at heq
            simp only [Option.some.injEq] at heq
            subst heq
            refine ⟨sv2, h2, hd2.trans hd, by omega, ?_⟩
            rw [hstr2, hstr, hs, List.dropWhile_cons_of_pos hc]
            rfl
        · simp only [hc]
          refine ⟨sv, rfl, rfl, rfl, ?_⟩
          rw [hs, List.dropWhile_cons_of_neg hc]

theorem Trim.skipTerminating_spec (sv : StringView) :
    ∃ sv1, Trim.skipTerminating sv = some sv1 ∧ sv1.data = sv.data ∧
      sv1.start = sv.start ∧ sv1.size ≤ sv.size ∧
      sv1.str = sv.str.rdropWhile isspace := by
  obtain ⟨n, hn⟩ : ∃ n, sv.size = n := ⟨_, rfl⟩
  induction n using Nat.strong_induction_on generalizing sv with
  | _ n ih =>
    unfold Trim.skipTerminating
    split
    · next hemp =>
      have hsz : sv.size = 0 := (StringView.empty_iff sv).mp hemp
      have hl := StringView.length_str sv
      rw [hsz] at hl
      refine ⟨sv, rfl, rfl, rfl, le_refl _, ?_⟩
      rw [List.length_eq_zero.mp hl]
      rfl
    · next hemp =>
      have hsz : ¬ sv.size = 0 := fun h0 => hemp ((StringView.empty_iff sv).mpr h0)
      have hl := StringView.length_str sv
      have hb := StringView.back_eq_getLast sv
      rcases List.eq_nil_or_concat sv.str with hs | ⟨cs, c, hs⟩
      · rw [hs] at hl; simp at hl; omega
      · rw [List.concat_eq_append] at hs
        rw [hs] at hb
        rw [List.getLast?_concat] at hb
        simp only [hb]
        by_cases hc : isspace c = true
        · simp only [hc, if_true]
          obtain ⟨sv1, h1⟩ := StringView.remove_suffix_isSome sv 1 (by omega)
          obtain ⟨_, hd, hst, hsize, hstr⟩ := StringView.remove_suffix_spec h1
          obtain ⟨sv2, h2, hd2, hs2, hle2, hstr2⟩ := ih sv1.size (by omega) sv1 rfl
          split
          · next heq => rw [h1] at heq; simp at heq
          · next sv1' heq =>
            rw [h1] at heq
            simp only [Option.some.injEq] at heq
            subst heq
            refine ⟨sv2, h2, hd2.trans hd, hs2.trans hst, by omega, ?_⟩
            rw [hstr2, hstr, hs, List.rdropWhile_concat_pos _ _ _ hc]
            rw [hs] at hl
            simp only [List.length_append, List.length_singleton] at hl
            rw [← hl]
            simp
        · simp only [hc]
          refine ⟨sv, rfl, rfl, rfl, le_refl _, ?_⟩
          rw [hs, List.rdropWhile_concat_neg _ _ _ hc]

theorem Trim_eq (t : Str) :
    Trim t = some ((t.dropWhile isspace).rdropWhile isspace) := by
  obtain ⟨sv1, h1, -, -, hs1⟩ := Trim.skipInitial_spec (StringView.ofString t)
  obtain ⟨sv2, h2, -, -, -, hs2⟩ := Trim.skipTerminating_spec sv1
  unfold Trim
  rw [h1]
  simp only [h2]
  rw [hs2, hs1, StringView.str_ofString]

theorem isspace_iff (c : Char) :
    isspace c = true ↔ c ∈ [' ', '\t', '\n', Char.ofNat 11, Char.ofNat 12, '\r'] := by
  simp [isspace, or_assoc]

theorem rdropWhile_append_rtakeWhile (p : Char → Bool) (l : Str) :
    l.rdropWhile p ++ l.rtakeWhile p = l := by
  have h := congrArg List.reverse (List.takeWhile_append_dropWhile p l.reverse)
  rw [List.reverse_append, List.reverse_reverse] at h
  exact h

theorem forall_mem_dropWhile_iff (p : Char → Bool) (l : Str) :
    (∀ c ∈ l.dropWhile p, p c = true) ↔ ∀ c ∈ l, p c = true := by
  constructor
  · intro h c hc
    rw [← List.takeWhile_append_dropWhile p l, List.mem_append] at hc
    rcases hc with hc | hc
    · exact List.mem_takeWhile_imp hc
    · exact h c hc
  · intro h c hc
    exact h c ((List.dropWhile_suffix p).subset hc)

/-! ## `Join` as a concatenation -/

theorem Join.foldl_eq {S : Type} [Streamable S] (sep : S) (rest : List Str) (acc : Str) :
    rest.foldl (fun result it => result ++ Streamable.put sep ++ Streamable.put it) acc =
      acc ++ (rest.map fun e => Streamable.put sep ++ e).flatten := by
  induction rest generalizing acc with
  | nil => simp
  | cons e rest ih =>
    rw [List.foldl_cons, ih]
    simp [Streamable.put, List.append_assoc]

theorem Join_cons {S : Type} [Streamable S] (e0 : Str) (rest : List Str) (sep : S) :
    Join (e0 :: rest) sep = e0 ++ (rest.map fun e => Streamable.put sep ++ e).flatten := by
  show List.foldl _ (Streamable.put e0) rest = _
  rw [Join.foldl_eq]
  rfl

theorem Join_cons_cons {S : Type} [Streamable S] (e0 e1 : Str) (rest : List Str) (sep : S) :
    Join (e0 :: e1 :: rest) sep = e0 ++ Streamable.put sep ++ Join (e1 :: rest) sep := by
  rw [Join_cons, Join_cons]
  simp [List.append_assoc]

/-! ## Prefix and suffix tests -/

theorem StartsWith_iff (s p : StringView) : StartsWith s p = true ↔ p.str <+: s.str := by
  unfold StartsWith
  exact List.isPrefixOf_iff_prefix

theorem EndsWith_iff (s x : StringView) : EndsWith s x = true ↔ x.str <:+ s.str := by
  unfold EndsWith
  exact List.isSuffixOf_iff_suffix

theorem size_le_of_startsWith {s p : StringView} (h : p.str <+: s.str) : p.size ≤ s.size := by
  have := h.length_le
  rwa [StringView.length_str, StringView.length_str] at this

theorem size_le_of_endsWith {s x : StringView} (h : x.str <:+ s.str) : x.size ≤ s.size := by
  have := h.length_le
  rwa [StringView.length_str, StringView.length_str] at this

theorem ConsumePrefix_of_not_startsWith {s p : StringView} (h : ¬ p.str <+: s.str) :
    ConsumePrefix s p = some (false, s) := by
  have hf : StartsWith s p = false := by
    rw [← Bool.not_eq_true, StartsWith_iff]
    exact h
  simp [ConsumePrefix, hf]

theorem ConsumePrefix_of_startsWith {s p : StringView} (h : p.str <+: s.str) :
    ∃ v, ConsumePrefix s p = some (true, v) ∧ StringView.remove_prefix s p.size = some v := by
  have ht : StartsWith s p = true := (StartsWith_iff s p).mpr h
  obtain ⟨v, hv⟩ := StringView.remove_prefix_isSome s p.size (size_le_of_startsWith h)
  exact ⟨v, by simp [ConsumePrefix, ht, hv], hv⟩

theorem ConsumeSuffix_of_not_endsWith {s x : StringView} (h : ¬ x.str <:+ s.str) :
    ConsumeSuffix s x = some (false, s) := by
  have hf : EndsWith s x = false := by
    rw [← Bool.not_eq_true, EndsWith_iff]
    exact h
  simp [ConsumeSuffix, hf]

theorem ConsumeSuffix_of_endsWith {s x : StringView} (h : x.str <:+ s.str) :
    ∃ v, ConsumeSuffix s x = some (true, v) ∧ StringView.remove_suffix s x.size = some v := by
  have ht : EndsWith s x = true := (EndsWith_iff s x).mpr h
  obtain ⟨v, hv⟩ := StringView.remove_suffix_isSome s x.size (size_le_of_endsWith h)
  exact ⟨v, by simp [ConsumeSuffix, ht, hv], hv⟩

/-! ## The fields of `Split` -/

theorem Split.fields_ne_nil (s d : Str) : Split.fields s d ≠ [] := by
  cases s with
  | nil => simp [Split.fields]
  | cons c cs =>
    unfold Split.fields
    split
    · simp
    · split <;> simp

theorem Split.length_fields (s d : Str) :
    (Split.fields s d).length = 1 + s.countP (fun c => d.contains c) := by
  induction s with
  | nil => simp [Split.fields]
  | cons c cs ih =>
    unfold Split.fields
    by_cases hc : d.contains c = true
    · rw [if_pos hc, List.length_cons, ih, List.countP_cons_of_pos _ _ hc]
      exact Nat.add_assoc _ _ _
    · rw [if_neg hc, List.countP_cons_of_neg _ _ hc, ← ih]
      split
      · next h => exact absurd h (Split.fields_ne_nil cs d)
      · next f r h => rw [h]; rfl

theorem Split.fields_no_delimiter (s d : Str) :
    ∀ f ∈ Split.fields s d, ∀ c ∈ f, c ∉ d := by
  induction s with
  | nil => simp [Split.fields]
  | cons c cs ih =>
    unfold Split.fields
    by_cases hc : d.contains c = true
    · rw [if_pos hc]
      intro f hf
      rcases List.mem_cons.mp hf with rfl | hf
      · simp
      · exact ih f hf
    · rw [if_neg hc]
      split
      · next h => exact absurd h (Split.fields_ne_nil cs d)
      · next f0 r h =>
        rw [h] at ih
        intro f hf
        rcases List.mem_cons.mp hf with rfl | hf
        · intro x hx
          rcases List.mem_cons.mp hx with rfl | hx
          · simpa using hc
          · exact ih f0 (List.mem_cons_self _ _) x hx
        · exact ih f (List.mem_cons_of_mem _ hf)

theorem Split.join_fields (s : Str) (c : Char) : Join (Split.fields s [c]) c = s := by
  induction s with
  | nil => rfl
  | cons a cs ih =>
    unfold Split.fields
    by_cases hc : [c].contains a = true
    · rw [if_pos hc]
      have hac : a = c := by simpa using hc
      cases hf : Split.fields cs [c] with
      | nil => exact absurd hf (Split.fields_ne_nil cs [c])
      | cons f r =>
        rw [Join_cons_cons, ← hf, ih, hac]
        rfl
    · rw [if_neg hc]
      split
      · next h => exact absurd h (Split.fields_ne_nil cs [c])
      · next f r h =>
        rw [h, Join_cons] at ih
        rw [Join_cons, List.cons_append, ih]

/-! ## The tokens of `Tokenize` -/

theorem Tokenize.scan_eq_filter_fields (d : Str) (s : Str) :
    ∀ (cur f : Str) (fs : List Str), Split.fields s d = f :: fs →
      Tokenize.scan d cur s = ((cur ++ f) :: fs).filter fun x => !x.isEmpty := by
  induction s with
  | nil =>
    intro cur f fs h
    simp only [Split.fields, List.cons.injEq] at h
    obtain ⟨rfl, rfl⟩ := h
    cases cur <;> simp [Tokenize.scan]
  | cons c cs ih =>
    intro cur f fs h
    unfold Split.fields at h
    unfold Tokenize.scan
    by_cases hc : d.contains c = true
    · rw [if_pos hc] at h
      rw [if_pos hc]
      simp only [List.cons.injEq] at h
      obtain ⟨rfl, rfl⟩ := h
      cases hf : Split.fields cs d with
      | nil => exact absurd hf (Split.fields_ne_nil cs d)
      | cons f0 r =>
        have h0 := ih [] f0 r hf
        rw [List.nil_append] at h0
        cases cur <;> simp [h0]
    · rw [if_neg hc] at h
      rw [if_neg hc]
      cases hf : Split.fields cs d with
      | nil => exact absurd hf (Split.fields_ne_nil cs d)
      | cons f0 r =>
        rw [hf] at h
        simp only [List.cons.injEq] at h
        obtain ⟨rfl, rfl⟩ := h
        rw [ih (cur ++ [c]) f0 r hf]
        simp

theorem Tokenize.scan_eq_filter (d s : Str) :
    Tokenize.scan d [] s = (Split.fields s d).filter fun x => !x.isEmpty := by
  cases hf : Split.fields s d with
  | nil => exact absurd hf (Split.fields_ne_nil s d)
  | cons f fs =>
    rw [Tokenize.scan_eq_filter_fields d s [] f fs hf]
    rfl

theorem Tokenize.gaps_cons (d : Str) (c : Char) (hc : c ∈ d) (toks gaps : List Str) (tl : Str)
    (hlen : gaps.length = toks.length) (hg : ∀ g ∈ gaps, ∀ x ∈ g, x ∈ d)
    (ht : ∀ x ∈ tl, x ∈ d) :
    ∃ gaps1 tl1, gaps1.length = toks.length ∧ (∀ g ∈ gaps1, ∀ x ∈ g, x ∈ d) ∧
      (∀ x ∈ tl1, x ∈ d) ∧
      c :: ((List.zipWith (fun g t => g ++ t) gaps toks).flatten ++ tl) =
        (List.zipWith (fun g t => g ++ t) gaps1 toks).flatten ++ tl1 := by
  cases gaps with
  | nil =>
    have : toks = [] := List.length_eq_zero.mp hlen.symm
    subst this
    refine ⟨[], c :: tl, rfl, by simp, ?_, by simp⟩
    intro x hx
    rcases List.mem_cons.mp hx with rfl | hx
    · exact hc
    · exact ht x hx
  | cons g gs =>
    cases toks with
    | nil => simp at hlen
    | cons t ts =>
      refine ⟨(c :: g) :: gs, tl, by simpa using hlen, ?_, ht, by simp⟩
      intro g1 hg1
      rcases List.mem_cons.mp hg1 with rfl | hg1
      · intro x hx
        rcases List.mem_cons.mp hx with rfl | hx
        · exact hc
        · exact hg g (List.mem_cons_self _ _) x hx
      · exact hg g1 (List.mem_cons_of_mem _ hg1)

theorem Tokenize.scan_in_order (d : Str) (s : Str) :
    ∀ cur : Str, ∃ gaps tl, gaps.length = (Tokenize.scan d cur s).length ∧
      (∀ g ∈ gaps, ∀ x ∈ g, x ∈ d) ∧ (∀ x ∈ tl, x ∈ d) ∧
      cur ++ s =
        (List.zipWith (fun g t => g ++ t) gaps (Tokenize.scan d cur s)).flatten ++ tl := by
  induction s with
  | nil =>
    intro cur
    cases cur with
    | nil => exact ⟨[], [], by simp [Tokenize.scan]⟩
    | cons a as => exact ⟨[[]], [], by simp [Tokenize.scan]⟩
  | cons c cs ih =>
    intro cur
    unfold Tokenize.scan
    by_cases hc : d.contains c = true
    · rw [if_pos hc]
      have hcd : c ∈ d := by simpa using hc
      obtain ⟨gaps0, tl0, hlen0, hg0, ht0, heq0⟩ := ih []
      rw [List.nil_append] at heq0
      obtain ⟨gaps1, tl1, hlen1, hg1, ht1, heq1⟩ :=
        Tokenize.gaps_cons d c hcd _ gaps0 tl0 hlen0 hg0 ht0
      rw [← heq0] at heq1
      cases cur with
      | nil => exact ⟨gaps1, tl1, by simpa using hlen1, hg1, ht1, by simpa using heq1⟩
      | cons a as =>
        refine ⟨[] :: gaps1, tl1, by simpa using hlen1, ?_, ht1, ?_⟩
        · intro g hg
          rcases List.mem_cons.mp hg with rfl | hg
          · simp
          · exact hg1 g hg
        · simp [heq1]
    · rw [if_neg hc]
      obtain ⟨gaps, tl, hlen, hg, ht, heq⟩ := ih (cur ++ [c])
      refine ⟨gaps, tl, hlen, hg, ht, ?_⟩
      rw [← heq]
      simp

/-! ## The scan of `StringReplace` -/

theorem StringReplace.scan_match (from_ to_ : Str) (all : Bool) (post : Str)
    (hfrom : from_ ≠ []) :
    StringReplace.scan from_ to_ all (from_ ++ post) =
      to_ ++ (if all then StringReplace.scan from_ to_ all post else post) := by
  cases hf : from_ with
  | nil => exact absurd hf hfrom
  | cons f fr =>
    rw [List.cons_append, StringReplace.scan, ← List.cons_append, ← hf]
    have h1 : from_.isPrefixOf (from_ ++ post) = true :=
      List.isPrefixOf_iff_prefix.mpr (List.prefix_append _ _)
    have h2 : from_.isEmpty = false := by rw [hf]; rfl
    simp only [h1, h2, Bool.not_false, Bool.and_self, if_true, List.drop_left]

theorem StringReplace.scan_no_match (from_ to_ : Str) (all : Bool) (c : Char) (cs : Str)
    (h : ¬ from_ <+: c :: cs) :
    StringReplace.scan from_ to_ all (c :: cs) = c :: StringReplace.scan from_ to_ all cs := by
  rw [StringReplace.scan]
  have h1 : from_.isPrefixOf (c :: cs) = false := by
    rw [← Bool.not_eq_true, List.isPrefixOf_iff_prefix]
    exact h
  simp only [h1, Bool.false_and, Bool.false_eq_true, if_false]

theorem StringReplace.scan_leftmost (from_ to_ : Str) (all : Bool) (post : Str)
    (hfrom : from_ ≠ []) :
    ∀ pre : Str, (∀ a b, pre ++ from_ = a ++ from_ ++ b → a = pre) →
      StringReplace.scan from_ to_ all (pre ++ from_ ++ post) =
        pre ++ to_ ++ (if all then StringReplace.scan from_ to_ all post else post) := by
  intro pre
  induction pre with
  | nil =>
    intro _
    rw [List.nil_append, List.nil_append]
    exact StringReplace.scan_match from_ to_ all post hfrom
  | cons c pre1 ih =>
    intro hleft
    have hno : ¬ from_ <+: c :: (pre1 ++ from_ ++ post) := by
      intro hp
      have hq : (c :: pre1) ++ from_ <+: c :: (pre1 ++ from_ ++ post) := by
        rw [← List.cons_append, ← List.cons_append]
        exact List.prefix_append _ _
      have hlen : from_.length ≤ ((c :: pre1) ++ from_).length := by
        simp only [List.length_append, List.length_cons]
        omega
      obtain ⟨b, hb⟩ := List.prefix_of_prefix_length_le hp hq hlen
      have := hleft [] b (by rw [List.nil_append, hb])
      simp at this
    have hleft1 : ∀ a b, pre1 ++ from_ = a ++ from_ ++ b → a = pre1 := by
      intro a b hab
      have := hleft (c :: a) b (by simp [hab])
      simpa using this
    rw [List.cons_append, List.cons_append, StringReplace.scan_no_match _ _ _ _ _ hno,
      ih hleft1]
    simp

theorem StringReplace.scan_absent (from_ to_ : Str) (all : Bool) :
    ∀ s : Str, (∀ a b, s ≠ a ++ from_ ++ b) → StringReplace.scan from_ to_ all s = s := by
  intro s
  induction s with
  | nil =>
    intro _
    rw [StringReplace.scan]
  | cons c cs ih =>
    intro habs
    have hno : ¬ from_ <+: c :: cs := by
      rintro ⟨b, hb⟩
      exact habs [] b (by rw [List.nil_append, hb])
    have habs1 : ∀ a b, cs ≠ a ++ from_ ++ b := by
      intro a b hab
      exact habs (c :: a) b (by simp [hab])
    rw [StringReplace.scan_no_match _ _ _ _ _ hno, ih habs1]

/-! ## Case-insensitive tests -/

theorem EqualsIgnoreCase_iff_map (lhs rhs : StringView) :
    EqualsIgnoreCase lhs rhs = true ↔
      lhs.str.length = rhs.str.length ∧ lhs.str.map tolower = rhs.str.map tolower := by
  simp [EqualsIgnoreCase, StringView.length_str]

theorem StartsWithIgnoreCase_iff (s p : StringView) :
    StartsWithIgnoreCase s p = true ↔ p.str.map tolower <+: s.str.map tolower := by
  unfold StartsWithIgnoreCase
  exact List.isPrefixOf_iff_prefix

/-! ## Further properties of `Trim`, the narrowing calls and `Join` -/

theorem dropWhile_rdropWhile_dropWhile (p : Char → Bool) (l : Str) :
    ((l.dropWhile p).rdropWhile p).dropWhile p = (l.dropWhile p).rdropWhile p := by
  rw [List.dropWhile_eq_self_iff]
  intro hl
  have hr : (l.dropWhile p).rdropWhile p ≠ [] := List.length_pos.mp hl
  have hpre : (l.dropWhile p).rdropWhile p <+: l.dropWhile p := List.rdropWhile_prefix p _
  have hne : l.dropWhile p ≠ [] := by
    intro h0
    rw [h0] at hr
    exact hr rfl
  have hhead := List.head_dropWhile_not p l hne
  rw [← hpre.head hr] at hhead
  show ¬ p ((l.dropWhile p).rdropWhile p)[0] = true
  rw [List.getElem_zero hl]
  simp [hhead]

theorem ConsumePrefixWith_StartsWith (s p : StringView) :
    ConsumePrefixWith StartsWith s p = ConsumePrefix s p := rfl

theorem ConsumeSuffixWith_EndsWith (s x : StringView) :
    ConsumeSuffixWith EndsWith s x = ConsumeSuffix s x := rfl

/-! ## The documented properties -/

/-- C1. `Trim` returns a string `r` with `s = pre ++ r ++ post`, where `pre` and `post` hold
only ASCII whitespace (space, `\t`, `\n`, `\v`, `\f`, `\r`) and `r` is empty or both
starts and ends with a non-whitespace character; for instance `Trim("  hi  ") = "hi"`. -/
theorem Trim_strips_leading_and_trailing (s : Str) :
    (∃ r pre post : Str, Trim s = some r ∧
      (∀ c ∈ pre, c ∈ [' ', '\t', '\n', Char.ofNat 11, Char.ofNat 12, '\r']) ∧
      (∀ c ∈ post, c ∈ [' ', '\t', '\n', Char.ofNat 11, Char.ofNat 12, '\r']) ∧
      s = pre ++ r ++ post ∧
      (r = [] ∨ ∃ h : r ≠ [],
        r.head h ∉ [' ', '\t', '\n', Char.ofNat 11, Char.ofNat 12, '\r'] ∧
        r.getLast h ∉ [' ', '\t', '\n', Char.ofNat 11, Char.ofNat 12, '\r'])) ∧
    Trim "  hi  ".toList = some "hi".toList := by
  refine ⟨⟨(s.dropWhile isspace).rdropWhile isspace, s.takeWhile isspace,
    (s.dropWhile isspace).rtakeWhile isspace, Trim_eq s, ?_, ?_, ?_, ?_⟩, ?_⟩
  · intro c hc
    exact (isspace_iff c).mp (List.mem_takeWhile_imp hc)
  · intro c hc
    exact (isspace_iff c).mp (List.mem_rtakeWhile_imp hc)
  · rw [List.append_assoc, rdropWhile_append_rtakeWhile, List.takeWhile_append_dropWhile]
  · by_cases hr : (s.dropWhile isspace).rdropWhile isspace = []
    · exact Or.inl hr
    · refine Or.inr ⟨hr, ?_, ?_⟩
      · rw [← isspace_iff]
        have hpre : (s.dropWhile isspace).rdropWhile isspace <+: s.dropWhile isspace :=
          List.rdropWhile_prefix isspace _
        have hne : s.dropWhile isspace ≠ [] := by
          intro h0
          rw [h0] at hr
          exact hr rfl
        rw [hpre.head hr]
        have := List.head_dropWhile_not isspace s hne
        simp [this]
      · rw [← isspace_iff]
        exact List.rdropWhile_last_not isspace _ hr
  · rw [Trim_eq]
    decide

/-- C2. For a non-empty container `e0, e1, ..., e(n-1)` of strings and a separator that is a
character or a string, `Join` returns `e0 ++ sep ++ e1 ++ ... ++ sep ++ e(n-1)`: the elements
in order, the separator once before each element but the first, nothing before `e0` and nothing
after the last element; a one-element container gives that element. -/
theorem Join_nonempty (e0 : Str) (rest : List Str) :
    (∀ sep : Char, Join (e0 :: rest) sep = e0 ++ (rest.map fun e => sep :: e).flatten) ∧
    (∀ sep : Str, Join (e0 :: rest) sep = e0 ++ (rest.map fun e => sep ++ e).flatten) ∧
    (∀ sep : Char, Join (e0 :: rest) sep = List.intercalate [sep] (e0 :: rest)) ∧
    (∀ sep : Str, Join (e0 :: rest) sep = List.intercalate sep (e0 :: rest)) ∧
    (∀ sep : Char, Join [e0] sep = e0) ∧ (∀ sep : Str, Join [e0] sep = e0) ∧
    Join ["a".toList, "b".toList, "c".toList] ',' = "a,b,c".toList := by
  have key : ∀ (sep : Str) (l : List Str) (e : Str),
      List.intercalate sep (e :: l) = e ++ (l.map fun x => sep ++ x).flatten := by
    intro sep l
    induction l with
    | nil => intro e; simp [List.intercalate]
    | cons x l ih =>
      intro e
      have h := ih x
      simp only [List.intercalate, List.intersperse_cons_cons, List.flatten_cons] at h ⊢
      simp [h]
  refine ⟨?_, ?_, ?_, ?_, ?_, ?_, ?_⟩
  · intro sep
    rw [Join_cons]
    rfl
  · intro sep
    rw [Join_cons]
    rfl
  · intro sep
    rw [Join_cons, key]
    rfl
  · intro sep
    rw [Join_cons, key]
    rfl
  · intro sep
    simp [Join, Streamable.put]
  · intro sep
    simp [Join, Streamable.put]
  · decide

/-- C3. When the view `s` starts with `p`, `ConsumePrefix(&s, p)` returns `true` and the view
afterwards is the old one without its first `|p|` characters: `p ++ v` is the old `s`. -/
theorem ConsumePrefix_removes_prefix (s p : StringView) (h : p.str <+: s.str) :
    ∃ v, ConsumePrefix s p = some (true, v) ∧ p.str ++ v.str = s.str ∧
      v.str = s.str.drop p.str.length ∧ v.size = s.size - p.size := by
  obtain ⟨v, hv, hrm⟩ := ConsumePrefix_of_startsWith h
  obtain ⟨_, _, _, hsize, hstr⟩ := StringView.remove_prefix_spec hrm
  refine ⟨v, hv, ?_, ?_, hsize⟩
  · rw [hstr, ← StringView.length_str p]
    exact List.prefix_iff_eq_append.mp h
  · rw [hstr, StringView.length_str]

/-- The view `"foobar"` with prefix `"foo"` becomes `"bar"`. -/
theorem ConsumePrefix_removes_prefix_witness :
    (StringView.ofString "foo".toList).str <+: (StringView.ofString "foobar".toList).str ∧
    ∃ v, ConsumePrefix (StringView.ofString "foobar".toList) (StringView.ofString "foo".toList)
        = some (true, v) ∧
      (StringView.ofString "foo".toList).str ++ v.str
        = (StringView.ofString "foobar".toList).str ∧
      v.str = (StringView.ofString "foobar".toList).str.drop
        (StringView.ofString "foo".toList).str.length ∧
      v.size = (StringView.ofString "foobar".toList).size
        - (StringView.ofString "foo".toList).size :=
  ⟨by decide, ConsumePrefix_removes_prefix _ _ (by decide)⟩

/-- C4. When the view `s` does not start with `p`, `ConsumePrefix(&s, p)` returns `false` and
the view is the same afterwards (same text, same start, same length); so it returns `true`
exactly when `s` starts with `p`. -/
theorem ConsumePrefix_no_match (s p : StringView) :
    (¬ p.str <+: s.str → ConsumePrefix s p = some (false, s)) ∧
    ((∃ v, ConsumePrefix s p = some (true, v)) ↔ p.str <+: s.str) := by
  refine ⟨ConsumePrefix_of_not_startsWith, ?_, ?_⟩
  · rintro ⟨v, hv⟩
    by_contra hn
    rw [ConsumePrefix_of_not_startsWith hn] at hv
    simp at hv
  · intro h
    obtain ⟨v, hv, _⟩ := ConsumePrefix_of_startsWith h
    exact ⟨v, hv⟩

/-- The view `"bar"` does not start with `"foo"`: the call returns `false` and the view is
still `"bar"`. -/
theorem ConsumePrefix_no_match_witness :
    ¬ (StringView.ofString "foo".toList).str <+: (StringView.ofString "bar".toList).str ∧
    ConsumePrefix (StringView.ofString "bar".toList) (StringView.ofString "foo".toList)
      = some (false, StringView.ofString "bar".toList) :=
  ⟨by decide, (ConsumePrefix_no_match _ _).1 (by decide)⟩

/-- C5. When the view `s` ends with `x`, `ConsumeSuffix(&s, x)` yields `true` and a view `v`
with `v ++ x` the old `s`; when `s` does not end with `x` it yields `false` and the view
unchanged. -/
theorem ConsumeSuffix_spec (s x : StringView) :
    (x.str <:+ s.str → ∃ v, ConsumeSuffix s x = some (true, v) ∧ v.str ++ x.str = s.str) ∧
    (¬ x.str <:+ s.str → ConsumeSuffix s x = some (false, s)) := by
  refine ⟨?_, ConsumeSuffix_of_not_endsWith⟩
  intro h
  obtain ⟨v, hv, hrm⟩ := ConsumeSuffix_of_endsWith h
  obtain ⟨_, _, _, _, hstr⟩ := StringView.remove_suffix_spec hrm
  refine ⟨v, hv, ?_⟩
  rw [hstr, ← StringView.length_str s, ← StringView.length_str x]
  exact List.suffix_iff_eq_append.mp h

/-- The view `"foobar"` ends with `"bar"` and is narrowed to `"foo"`; it does not end with
`"foo"` and is left alone. -/
theorem ConsumeSuffix_spec_witness :
    ((StringView.ofString "bar".toList).str <:+ (StringView.ofString "foobar".toList).str ∧
      ∃ v, ConsumeSuffix (StringView.ofString "foobar".toList) (StringView.ofString "bar".toList)
          = some (true, v) ∧
        v.str ++ (StringView.ofString "bar".toList).str
          = (StringView.ofString "foobar".toList).str) ∧
    (¬ (StringView.ofString "foo".toList).str <:+ (StringView.ofString "foobar".toList).str ∧
      ConsumeSuffix (StringView.ofString "foobar".toList) (StringView.ofString "foo".toList)
        = some (false, StringView.ofString "foobar".toList)) :=
  ⟨⟨by decide, (ConsumeSuffix_spec _ _).1 (by decide)⟩,
    ⟨by decide, (ConsumeSuffix_spec _ _).2 (by decide)⟩⟩

/-- C6. `ConsumePrefix` and `ConsumeSuffix` return a view over the same backing text whose
range lies inside the range of the view they were given: `ConsumePrefix` keeps the end of
the range, `ConsumeSuffix` keeps its start. -/
theorem Consume_frame (s a : StringView) :
    (∃ b v, ConsumePrefix s a = some (b, v) ∧ v.data = s.data ∧
      s.start ≤ v.start ∧ v.start + v.size ≤ s.start + s.size ∧
      v.start + v.size = s.start + s.size) ∧
    (∃ b v, ConsumeSuffix s a = some (b, v) ∧ v.data = s.data ∧
      s.start ≤ v.start ∧ v.start + v.size ≤ s.start + s.size ∧
      v.start = s.start) := by
  constructor
  · by_cases h : a.str <+: s.str
    · obtain ⟨v, hv, hrm⟩ := ConsumePrefix_of_startsWith h
      obtain ⟨hle, hd, hst, hsize, _⟩ := StringView.remove_prefix_spec hrm
      exact ⟨true, v, hv, hd, by omega, by omega, by omega⟩
    · exact ⟨false, s, ConsumePrefix_of_not_startsWith h, rfl, le_refl _, le_refl _, rfl⟩
  · by_cases h : a.str <:+ s.str
    · obtain ⟨v, hv, hrm⟩ := ConsumeSuffix_of_endsWith h
      obtain ⟨hle, hd, hst, hsize, _⟩ := StringView.remove_suffix_spec hrm
      exact ⟨true, v, hv, hd, by omega, by omega, hst⟩
    · exact ⟨false, s, ConsumeSuffix_of_not_endsWith h, rfl, le_refl _, le_refl _, rfl⟩

/-- C7. `Trim(s)` is the empty string exactly when every character of `s` is ASCII
whitespace; this covers `""` and `"\t\n"`. -/
theorem Trim_empty_iff_all_whitespace (s : Str) :
    (Trim s = some [] ↔
      ∀ c ∈ s, c ∈ [' ', '\t', '\n', Char.ofNat 11, Char.ofNat 12, '\r']) ∧
    Trim "".toList = some [] ∧ Trim "\t\n".toList = some [] := by
  refine ⟨?_, ?_, ?_⟩
  · rw [Trim_eq, Option.some.injEq, List.rdropWhile_eq_nil_iff, forall_mem_dropWhile_iff]
    exact forall_congr' fun c => imp_congr_right fun _ => isspace_iff c
  · rw [Trim_eq]
    decide
  · rw [Trim_eq]
    decide

/-- C8. `Join` of an empty container is the empty string, whatever the separator. -/
theorem Join_empty :
    (∀ sep : Char, Join ([] : List Str) sep = []) ∧
    (∀ sep : Str, Join ([] : List Str) sep = []) := by
  exact ⟨fun _ => rfl, fun _ => rfl⟩

/-- C9. For a non-empty delimiter list `d`, `Split(s, d)` keeps empty fields: it returns one
field more than `s` has characters that belong to `d`, and no field holds a character of `d`;
`Split("", d) = [""]` and `Split("a,b,,c", ",") = ["a", "b", "", "c"]`. -/
theorem Split_preserves_empty_fields (s d : Str) (hd : d ≠ []) :
    (∃ fields, Split s d = some fields ∧
      fields.length = 1 + s.countP (fun c => c ∈ d) ∧
      ∀ f ∈ fields, ∀ c ∈ f, c ∉ d) ∧
    Split [] d = some [[]] ∧
    Split "a,b,,c".toList ",".toList = some ["a".toList, "b".toList, "".toList, "c".toList] := by
  have hne : d.isEmpty = false := by
    cases d with
    | nil => exact absurd rfl hd
    | cons _ _ => rfl
  refine ⟨⟨Split.fields s d, by simp [Split, hne], ?_, Split.fields_no_delimiter s d⟩, ?_, ?_⟩
  · rw [Split.length_fields]
    congr 1
    apply List.countP_congr
    intro c _
    simp
  · simp [Split, hne, Split.fields]
  · decide

/-- With the delimiter list `",;"`, the text `",a;"` has two delimiters and three fields. -/
theorem Split_preserves_empty_fields_witness :
    ",;".toList ≠ [] ∧
    ((∃ fields, Split ",a;".toList ",;".toList = some fields ∧
      fields.length = 1 + ",a;".toList.countP (fun c => c ∈ ",;".toList) ∧
      ∀ f ∈ fields, ∀ c ∈ f, c ∉ ",;".toList) ∧
    Split [] ",;".toList = some [[]] ∧
    Split "a,b,,c".toList ",".toList = some ["a".toList, "b".toList, "".toList, "c".toList]) :=
  ⟨by decide, Split_preserves_empty_fields _ _ (by decide)⟩

/-- C10. Joining the fields of `Split(s, "c")` with the delimiter `c`, given as a character
or as the one-character string, gives back `s`. -/
theorem Join_Split_roundtrip (s : Str) (c : Char) :
    ∃ fields, Split s [c] = some fields ∧ Join fields c = s ∧ Join fields [c] = s := by
  exact ⟨Split.fields s [c], by simp [Split], Split.join_fields s c, Split.join_fields s c⟩

/-- C11. For a non-empty delimiter list `d`, every token of `Tokenize(s, d)` is non-empty and
holds no character of `d`, and the tokens come in their order of occurrence in `s`: `s` is
made of the tokens in order, each after a run of delimiters, and a last run of delimiters.
`Tokenize(" foo  bar ", " ") = ["foo", "bar"]`, which `Join` with `" "` turns into
`"foo bar"`. -/
theorem Tokenize_tokens_nonempty (s d : Str) (hd : d ≠ []) :
    (∃ tokens, Tokenize s d = some tokens ∧
      (∀ t ∈ tokens, t ≠ [] ∧ ∀ c ∈ t, c ∉ d) ∧
      ∃ gaps tl, gaps.length = tokens.length ∧
        (∀ g ∈ gaps, ∀ c ∈ g, c ∈ d) ∧ (∀ c ∈ tl, c ∈ d) ∧
        s = (List.zipWith (fun g t => g ++ t) gaps tokens).flatten ++ tl) ∧
    Tokenize " foo  bar ".toList " ".toList = some ["foo".toList, "bar".toList] ∧
    (Tokenize " foo  bar ".toList " ".toList).map (fun tokens => Join tokens " ".toList)
      = some "foo bar".toList := by
  have hne : d.isEmpty = false := by
    cases d with
    | nil => exact absurd rfl hd
    | cons _ _ => rfl
  refine ⟨⟨Tokenize.scan d [] s, by simp [Tokenize, hne], ?_, ?_⟩, by decide, by decide⟩
  · intro t ht
    rw [Tokenize.scan_eq_filter, List.mem_filter] at ht
    refine ⟨?_, Split.fields_no_delimiter s d t ht.1⟩
    intro h0
    rw [h0] at ht
    simp at ht
  · obtain ⟨gaps, tl, hlen, hg, ht, heq⟩ := Tokenize.scan_in_order d s []
    exact ⟨gaps, tl, hlen, hg, ht, by simpa using heq⟩

/-- With the delimiter list `",;"`, the text `"a,b;,c"` has the tokens `a`, `b`, `c`. -/
theorem Tokenize_tokens_nonempty_witness :
    ",;".toList ≠ [] ∧
    ((∃ tokens, Tokenize "a,b;,c".toList ",;".toList = some tokens ∧
      (∀ t ∈ tokens, t ≠ [] ∧ ∀ c ∈ t, c ∉ ",;".toList) ∧
      ∃ gaps tl, gaps.length = tokens.length ∧
        (∀ g ∈ gaps, ∀ c ∈ g, c ∈ ",;".toList) ∧ (∀ c ∈ tl, c ∈ ",;".toList) ∧
        "a,b;,c".toList = (List.zipWith (fun g t => g ++ t) gaps tokens).flatten ++ tl) ∧
    Tokenize " foo  bar ".toList " ".toList = some ["foo".toList, "bar".toList] ∧
    (Tokenize " foo  bar ".toList " ".toList).map (fun tokens => Join tokens " ".toList)
      = some "foo bar".toList) :=
  ⟨by decide, Tokenize_tokens_nonempty _ _ (by decide)⟩

/-- C12. For a non-empty delimiter list `d`, `Tokenize(s, d)` is `Split(s, d)` without its
empty fields: the same fields in the same order, the empty ones left out. -/
theorem Tokenize_eq_Split_without_empty (s d : Str) (hd : d ≠ []) :
    ∃ fields tokens, Split s d = some fields ∧ Tokenize s d = some tokens ∧
      tokens = fields.filter (fun f => f ≠ []) := by
  have hne : d.isEmpty = false := by
    cases d with
    | nil => exact absurd rfl hd
    | cons _ _ => rfl
  refine ⟨Split.fields s d, Tokenize.scan d [] s, by simp [Split, hne],
    by simp [Tokenize, hne], ?_⟩
  rw [Tokenize.scan_eq_filter]
  apply List.filter_congr
  intro f _
  cases f <;> simp

/-- With the delimiter `","`, the fields of `"a,b,,c"` are `a`, `b`, the empty string and
`c`, and its tokens are `a`, `b`, `c`. -/
theorem Tokenize_eq_Split_without_empty_witness :
    ",".toList ≠ [] ∧
    ∃ fields tokens, Split "a,b,,c".toList ",".toList = some fields ∧
      Tokenize "a,b,,c".toList ",".toList = some tokens ∧
      tokens = fields.filter (fun f => f ≠ []) :=
  ⟨by decide, Tokenize_eq_Split_without_empty _ _ (by decide)⟩

/-- C13. For a non-empty `from`, `StringReplace(s, from, to, false)` replaces the leftmost
occurrence only: when `s = pre ++ from ++ post` and `from` has no earlier occurrence in
`pre ++ from`, the result is `pre ++ to ++ post`; when `from` does not occur in `s` the result
is `s`. `StringReplace("aaa", "a", "b", false) = "baa"`. -/
theorem StringReplace_first_only (s from_ to_ : Str) (hfrom : from_ ≠ []) :
    (∀ pre post, s = pre ++ from_ ++ post →
      (∀ a b, pre ++ from_ = a ++ from_ ++ b → a = pre) →
      StringReplace s from_ to_ false = pre ++ to_ ++ post) ∧
    ((∀ a b, s ≠ a ++ from_ ++ b) → StringReplace s from_ to_ false = s) ∧
    StringReplace "aaa".toList "a".toList "b".toList false = "baa".toList := by
  have hne : from_.isEmpty = false := by
    cases from_ with
    | nil => exact absurd rfl hfrom
    | cons _ _ => rfl
  refine ⟨?_, ?_, ?_⟩
  · intro pre post hs hleft
    simp only [StringReplace, hne, Bool.false_eq_true, if_false]
    rw [hs, StringReplace.scan_leftmost from_ to_ false post hfrom pre hleft]
    simp
  · intro habs
    simp only [StringReplace, hne, Bool.false_eq_true, if_false]
    exact StringReplace.scan_absent from_ to_ false s habs
  · simp [StringReplace, StringReplace.scan]

/-- In `"aaa"` the text `"a"` occurs first at the start, and only that occurrence becomes
`"b"`; in `"xyz"` it does not occur and the text is returned as it is. -/
theorem StringReplace_first_only_witness :
    "a".toList ≠ [] ∧
    ("aaa".toList = [] ++ "a".toList ++ "aa".toList ∧
      (∀ a b : Str, [] ++ "a".toList = a ++ "a".toList ++ b → a = []) ∧
      StringReplace "aaa".toList "a".toList "b".toList false
        = [] ++ "b".toList ++ "aa".toList) ∧
    ((∀ a b : Str, "xyz".toList ≠ a ++ "a".toList ++ b) ∧
      StringReplace "xyz".toList "a".toList "b".toList false = "xyz".toList) := by
  have hleft : ∀ a b : Str, [] ++ "a".toList = a ++ "a".toList ++ b → a = [] := by
    intro a b h
    cases a with
    | nil => rfl
    | cons x xs =>
      have hlen := congrArg List.length h
      simp only [List.length_append, List.length_cons] at hlen
      have h1 : ([] : Str).length + "a".toList.length = 1 := by decide
      have h2 : "a".toList.length = 1 := by decide
      omega
  have habs : ∀ a b : Str, "xyz".toList ≠ a ++ "a".toList ++ b := by
    intro a b h
    have hm : 'a' ∈ "xyz".toList := by
      rw [h]
      exact List.mem_append.mpr (Or.inl (List.mem_append.mpr (Or.inr (by decide))))
    exact absurd hm (by decide)
  exact ⟨by decide,
    ⟨rfl, hleft, (StringReplace_first_only _ _ _ (by decide)).1 _ _ rfl hleft⟩,
    ⟨habs, (StringReplace_first_only _ _ _ (by decide)).2.1 habs⟩⟩

/-- C14. For a non-empty `from`, `StringReplace(s, from, to, true)` replaces every
non-overlapping leftmost match from left to right and does not scan the text it wrote: when
`s = pre ++ from ++ post` at the leftmost match, the result is
`pre ++ to ++ StringReplace(post, from, to, true)`; when `from` does not occur in `s` the
result is `s`. It returns also when `to` contains `from`, and
`StringReplace("aaa", "a", "b", true) = "bbb"`. -/
theorem StringReplace_all (s from_ to_ : Str) (hfrom : from_ ≠ []) :
    (∀ pre post, s = pre ++ from_ ++ post →
      (∀ a b, pre ++ from_ = a ++ from_ ++ b → a = pre) →
      StringReplace s from_ to_ true = pre ++ to_ ++ StringReplace post from_ to_ true) ∧
    ((∀ a b, s ≠ a ++ from_ ++ b) → StringReplace s from_ to_ true = s) ∧
    StringReplace "aaa".toList "a".toList "b".toList true = "bbb".toList ∧
    StringReplace "abab".toList "ab".toList "xaby".toList true = "xabyxaby".toList := by
  have hne : from_.isEmpty = false := by
    cases from_ with
    | nil => exact absurd rfl hfrom
    | cons _ _ => rfl
  refine ⟨?_, ?_, ?_, ?_⟩
  · intro pre post hs hleft
    simp only [StringReplace, hne, Bool.false_eq_true, if_false]
    rw [hs, StringReplace.scan_leftmost from_ to_ true post hfrom pre hleft]
    simp
  · intro habs
    simp only [StringReplace, hne, Bool.false_eq_true, if_false]
    exact StringReplace.scan_absent from_ to_ true s habs
  · simp [StringReplace, StringReplace.scan]
  · simp [StringReplace, StringReplace.scan]

/-- In `"aaa"` the leftmost `"a"` becomes `"b"` and the rest `"aa"` is replaced in the same
way; in `"xyz"` the text `"a"` does not occur and the text is returned as it is. -/
theorem StringReplace_all_witness :
    "a".toList ≠ [] ∧
    ("aaa".toList = [] ++ "a".toList ++ "aa".toList ∧
      (∀ a b : Str, [] ++ "a".toList = a ++ "a".toList ++ b → a = []) ∧
      StringReplace "aaa".toList "a".toList "b".toList true
        = [] ++ "b".toList ++ StringReplace "aa".toList "a".toList "b".toList true) ∧
    ((∀ a b : Str, "xyz".toList ≠ a ++ "a".toList ++ b) ∧
      StringReplace "xyz".toList "a".toList "b".toList true = "xyz".toList) := by
  have hleft : ∀ a b : Str, [] ++ "a".toList = a ++ "a".toList ++ b → a = [] := by
    intro a b h
    cases a with
    | nil => rfl
    | cons x xs =>
      have hlen := congrArg List.length h
      simp only [List.length_append, List.length_cons] at hlen
      have h1 : ([] : Str).length + "a".toList.length = 1 := by decide
      have h2 : "a".toList.length = 1 := by decide
      omega
  have habs : ∀ a b : Str, "xyz".toList ≠ a ++ "a".toList ++ b := by
    intro a b h
    have hm : 'a' ∈ "xyz".toList := by
      rw [h]
      exact List.mem_append.mpr (Or.inl (List.mem_append.mpr (Or.inr (by decide))))
    exact absurd hm (by decide)
  exact ⟨by decide,
    ⟨rfl, hleft, (StringReplace_all _ _ _ (by decide)).1 _ _ rfl hleft⟩,
    ⟨habs, (StringReplace_all _ _ _ (by decide)).2.1 habs⟩⟩

/-- C15. `EqualsIgnoreCase(lhs, rhs)` is true exactly when the two strings have the same length
and at every position their characters are equal after ASCII case folding; strings of
different lengths are never equal. `EqualsIgnoreCase("AbC", "abc")` is true and
`EqualsIgnoreCase("abcd", "abc")` is false. -/
theorem EqualsIgnoreCase_spec (lhs rhs : StringView) :
    (EqualsIgnoreCase lhs rhs = true ↔
      lhs.str.length = rhs.str.length ∧
      ∀ (i : Nat) (hl : i < lhs.str.length) (hr : i < rhs.str.length),
        tolower lhs.str[i] = tolower rhs.str[i]) ∧
    (lhs.str.length ≠ rhs.str.length → EqualsIgnoreCase lhs rhs = false) ∧
    EqualsIgnoreCase (StringView.ofString "AbC".toList) (StringView.ofString "abc".toList)
      = true ∧
    EqualsIgnoreCase (StringView.ofString "abcd".toList) (StringView.ofString "abc".toList)
      = false := by
  have hiff : EqualsIgnoreCase lhs rhs = true ↔
      lhs.str.length = rhs.str.length ∧
      ∀ (i : Nat) (hl : i < lhs.str.length) (hr : i < rhs.str.length),
        tolower lhs.str[i] = tolower rhs.str[i] := by
    rw [EqualsIgnoreCase_iff_map]
    constructor
    · rintro ⟨hsz, hmap⟩
      refine ⟨hsz, ?_⟩
      intro i hl hr
      have h1 : (lhs.str.map tolower)[i]? = (rhs.str.map tolower)[i]? := by rw [hmap]
      simpa [List.getElem?_eq_getElem hl, List.getElem?_eq_getElem hr] using h1
    · rintro ⟨hsz, hall⟩
      refine ⟨hsz, ?_⟩
      apply List.ext_getElem
      · simp [hsz]
      · intro i h1 h2
        simp only [List.length_map] at h1 h2
        simpa using hall i h1 h2
  refine ⟨hiff, ?_, by decide, by decide⟩
  intro hne
  rw [← Bool.not_eq_true, hiff]
  exact fun h => hne h.1

/-- The strings `"abcd"` and `"abc"` have different lengths and are not equal. -/
theorem EqualsIgnoreCase_spec_witness :
    (StringView.ofString "abcd".toList).str.length
      ≠ (StringView.ofString "abc".toList).str.length ∧
    EqualsIgnoreCase (StringView.ofString "abcd".toList) (StringView.ofString "abc".toList)
      = false :=
  ⟨by decide, (EqualsIgnoreCase_spec _ _).2.1 (by decide)⟩

/-- C16. `StartsWith(s, prefix)` is true exactly when `s = prefix ++ t` for some `t`, so it is
false when `prefix` is longer than `s`; `StartsWithIgnoreCase(s, prefix)` is true whenever
`StartsWith(s, prefix)` is, and also when the first `|prefix|` characters of `s` are `prefix`
up to ASCII case. `StartsWith("hello", "he")` and `StartsWithIgnoreCase("HELLO", "he")` are
true, `StartsWith("hi", "hello")` is false. -/
theorem StartsWith_spec (s pfx : StringView) :
    (StartsWith s pfx = true ↔ ∃ t, s.str = pfx.str ++ t) ∧
    (s.str.length < pfx.str.length → StartsWith s pfx = false) ∧
    (StartsWith s pfx = true → StartsWithIgnoreCase s pfx = true) ∧
    ((s.str.take pfx.str.length).map tolower = pfx.str.map tolower →
      StartsWithIgnoreCase s pfx = true) ∧
    StartsWith (StringView.ofString "hello".toList) (StringView.ofString "he".toList) = true ∧
    StartsWithIgnoreCase (StringView.ofString "HELLO".toList) (StringView.ofString "he".toList)
      = true ∧
    StartsWith (StringView.ofString "hi".toList) (StringView.ofString "hello".toList)
      = false := by
  refine ⟨?_, ?_, ?_, ?_, by decide, by decide, by decide⟩
  · rw [StartsWith_iff]
    constructor
    · rintro ⟨t, ht⟩
      exact ⟨t, ht.symm⟩
    · rintro ⟨t, ht⟩
      exact ⟨t, ht.symm⟩
  · intro hlt
    rw [← Bool.not_eq_true, StartsWith_iff]
    intro hp
    have := hp.length_le
    omega
  · intro h
    rw [StartsWithIgnoreCase_iff]
    exact ((StartsWith_iff s pfx).mp h).map tolower
  · intro h
    rw [StartsWithIgnoreCase_iff, ← h, List.map_take]
    exact List.take_prefix _ _

/-- The view `"HELLO"` does not start with `"he"`, but its first two characters are `"he"` up
to case; the view `"hi"` is shorter than `"hello"`; the view `"hello"` starts with `"he"`. -/
theorem StartsWith_spec_witness :
    (((StringView.ofString "HELLO".toList).str.take
        (StringView.ofString "he".toList).str.length).map tolower
      = (StringView.ofString "he".toList).str.map tolower ∧
      StartsWithIgnoreCase (StringView.ofString "HELLO".toList)
        (StringView.ofString "he".toList) = true) ∧
    ((StringView.ofString "hi".toList).str.length
        < (StringView.ofString "hello".toList).str.length ∧
      StartsWith (StringView.ofString "hi".toList) (StringView.ofString "hello".toList)
        = false) ∧
    (StartsWith (StringView.ofString "hello".toList) (StringView.ofString "he".toList) = true ∧
      StartsWithIgnoreCase (StringView.ofString "hello".toList)
        (StringView.ofString "he".toList) = true) :=
  ⟨⟨by decide, (StartsWith_spec _ _).2.2.2.1 (by decide)⟩,
    ⟨by decide, (StartsWith_spec _ _).2.1 (by decide)⟩,
    ⟨by decide, (StartsWith_spec _ _).2.2.1 (by decide)⟩⟩

/-- C17. `Trim` is idempotent: trimming the result of `Trim(s)` gives that result again. -/
theorem Trim_idempotent (s : Str) :
    (∃ r, Trim s = some r ∧ Trim r = some r) ∧ (Trim s).bind Trim = Trim s := by
  have h : Trim ((s.dropWhile isspace).rdropWhile isspace)
      = some ((s.dropWhile isspace).rdropWhile isspace) := by
    rw [Trim_eq, dropWhile_rdropWhile_dropWhile, List.rdropWhile_idempotent]
  refine ⟨⟨_, Trim_eq s, h⟩, ?_⟩
  rw [Trim_eq s, Option.some_bind, h]

/-- C18. Whatever tests stand for `StartsWith` and `EndsWith`, as long as they return true only
for a real prefix or suffix of the view: when `ConsumePrefix` reaches
`remove_prefix(prefix.size())`, or `ConsumeSuffix` reaches `remove_suffix(suffix.size())`, the
count is at most the size of the view, the call is defined, and the new size is the old size
minus the size of the argument; so neither function ever takes the out-of-range branch. -/
theorem Consume_narrowing_in_bounds (startsWith endsWith : StringView → StringView → Bool)
    (hstarts : ∀ s p, startsWith s p = true → p.str <+: s.str)
    (hends : ∀ s x, endsWith s x = true → x.str <:+ s.str) (s a : StringView) :
    (startsWith s a = true →
      a.size ≤ s.size ∧
      ∃ v, StringView.remove_prefix s a.size = some v ∧ v.size = s.size - a.size ∧
        ConsumePrefixWith startsWith s a = some (true, v)) ∧
    (endsWith s a = true →
      a.size ≤ s.size ∧
      ∃ v, StringView.remove_suffix s a.size = some v ∧ v.size = s.size - a.size ∧
        ConsumeSuffixWith endsWith s a = some (true, v)) ∧
    ConsumePrefixWith startsWith s a ≠ none ∧ ConsumeSuffixWith endsWith s a ≠ none := by
  have hp : startsWith s a = true →
      a.size ≤ s.size ∧
      ∃ v, StringView.remove_prefix s a.size = some v ∧ v.size = s.size - a.size ∧
        ConsumePrefixWith startsWith s a = some (true, v) := by
    intro ht
    have hle := size_le_of_startsWith (hstarts s a ht)
    obtain ⟨v, hv⟩ := StringView.remove_prefix_isSome s a.size hle
    obtain ⟨_, _, _, hsize, _⟩ := StringView.remove_prefix_spec hv
    exact ⟨hle, v, hv, hsize, by simp [ConsumePrefixWith, ht, hv]⟩
  have hs : endsWith s a = true →
      a.size ≤ s.size ∧
      ∃ v, StringView.remove_suffix s a.size = some v ∧ v.size = s.size - a.size ∧
        ConsumeSuffixWith endsWith s a = some (true, v) := by
    intro ht
    have hle := size_le_of_endsWith (hends s a ht)
    obtain ⟨v, hv⟩ := StringView.remove_suffix_isSome s a.size hle
    obtain ⟨_, _, _, hsize, _⟩ := StringView.remove_suffix_spec hv
    exact ⟨hle, v, hv, hsize, by simp [ConsumeSuffixWith, ht, hv]⟩
  refine ⟨hp, hs, ?_, ?_⟩
  · cases ht : startsWith s a with
    | false => simp [ConsumePrefixWith, ht]
    | true =>
      obtain ⟨_, v, _, _, hv⟩ := hp ht
      rw [hv]
      simp
  · cases ht : endsWith s a with
    | false => simp [ConsumeSuffixWith, ht]
    | true =>
      obtain ⟨_, v, _, _, hv⟩ := hs ht
      rw [hv]
      simp

/-- With the prefix and suffix tests of this library: the view `"foobar"` starts with `"foo"`
and ends with `"bar"`, and both narrowing calls remove three of its six characters. -/
theorem Consume_narrowing_in_bounds_witness :
    (∀ s p, StartsWith s p = true → p.str <+: s.str) ∧
    (∀ s x, EndsWith s x = true → x.str <:+ s.str) ∧
    (StartsWith (StringView.ofString "foobar".toList) (StringView.ofString "foo".toList)
        = true ∧
      (StringView.ofString "foo".toList).size ≤ (StringView.ofString "foobar".toList).size ∧
      ∃ v, StringView.remove_prefix (StringView.ofString "foobar".toList)
            (StringView.ofString "foo".toList).size = some v ∧
        v.size = (StringView.ofString "foobar".toList).size
          - (StringView.ofString "foo".toList).size ∧
        ConsumePrefixWith StartsWith (StringView.ofString "foobar".toList)
          (StringView.ofString "foo".toList) = some (true, v)) ∧
    (EndsWith (StringView.ofString "foobar".toList) (StringView.ofString "bar".toList)
        = true ∧
      (StringView.ofString "bar".toList).size ≤ (StringView.ofString "foobar".toList).size ∧
      ∃ v, StringView.remove_suffix (StringView.ofString "foobar".toList)
            (StringView.ofString "bar".toList).size = some v ∧
        v.size = (StringView.ofString "foobar".toList).size
          - (StringView.ofString "bar".toList).size ∧
        ConsumeSuffixWith EndsWith (StringView.ofString "foobar".toList)
          (StringView.ofString "bar".toList) = some (true, v)) :=
  ⟨fun s p h => (StartsWith_iff s p).mp h, fun s x h => (EndsWith_iff s x).mp h,
    ⟨by decide, (Consume_narrowing_in_bounds StartsWith EndsWith
      (fun s p h => (StartsWith_iff s p).mp h) (fun s x h => (EndsWith_iff s x).mp h)
      _ _).1 (by decide)⟩,
    ⟨by decide, (Consume_narrowing_in_bounds StartsWith EndsWith
      (fun s p h => (StartsWith_iff s p).mp h) (fun s x h => (EndsWith_iff s x).mp h)
      _ _).2.1 (by decide)⟩⟩

/-- C19. For non-empty containers `xs` and `ys` of strings and a separator that is a character
or a string, `Join(xs ++ ys, sep) = Join(xs, sep) ++ sep ++ Join(ys, sep)`. -/
theorem Join_append (xs ys : List Str) (hxs : xs ≠ []) (hys : ys ≠ []) :
    (∀ sep : Char, Join (xs ++ ys) sep = Join xs sep ++ [sep] ++ Join ys sep) ∧
    (∀ sep : Str, Join (xs ++ ys) sep = Join xs sep ++ sep ++ Join ys sep) := by
  have key : ∀ {S : Type} [Streamable S] (sep : S),
      Join (xs ++ ys) sep = Join xs sep ++ Streamable.put sep ++ Join ys sep := by
    intro S _ sep
    cases xs with
    | nil => exact absurd rfl hxs
    | cons x xs1 =>
      cases ys with
      | nil => exact absurd rfl hys
      | cons y ys1 =>
        rw [List.cons_append, Join_cons, Join_cons, Join_cons]
        simp [List.append_assoc]
  exact ⟨fun sep => key sep, fun sep => key sep⟩

/-- Joining `["a", "b"] ++ ["c"]` with a comma. -/
theorem Join_append_witness :
    ["a".toList, "b".toList] ≠ [] ∧ ["c".toList] ≠ [] ∧
    ((∀ sep : Char, Join (["a".toList, "b".toList] ++ ["c".toList]) sep
        = Join ["a".toList, "b".toList] sep ++ [sep] ++ Join ["c".toList] sep) ∧
    (∀ sep : Str, Join (["a".toList, "b".toList] ++ ["c".toList]) sep
        = Join ["a".toList, "b".toList] sep ++ sep ++ Join ["c".toList] sep)) :=
  ⟨by decide, by decide, Join_append _ _ (by decide) (by decide)⟩

end libbase
